import Mathlib

/-!
Shallow embedding of srpmproc's `internal/git.go` (GitMode): tag resolution
(`tagAdd` and the branch-head fallback in `RetrieveSource`), the per-manifest
blob acquisition loop of `WriteSource`, `PostProcess`, and `ImportName`.

External collaborators (the git engine, the blob store backend, the HTTP
transport and the hashing primitives) are parameters of the model, as the
spec places them out of scope.  Bytes are `List Nat`; time instants are `Int`
(only their ordering matters, via `time.Time.Before`/`After`).
-/

namespace Srpmproc

/-- Whitespace characters recognised by Go's `unicode.IsSpace` (the ASCII
subset, which is all that can appear in the inputs considered here). -/
def goIsSpace (c : Char) : Bool :=
  c = ' ' || c = '\t' || c = '\n' || c = '\x0b' || c = '\x0c' || c = '\r'

/-- Go `strings.TrimSpace`. -/
def goTrimSpace (s : String) : String :=
  String.mk (((s.data.dropWhile goIsSpace).reverse.dropWhile goIsSpace).reverse)

def listIsPre : List Char → List Char → Bool
  | [], _ => true
  | _ :: _, [] => false
  | a :: as, b :: bs => a = b && listIsPre as bs

/-- Go `strings.HasPrefix`. -/
def goHasPre (p s : String) : Bool := listIsPre p.data s.data

/-- Go `strings.TrimPrefix`. -/
def goStripPre (p s : String) : String :=
  if goHasPre p s then String.mk (s.data.drop p.data.length) else s

/-- Split a character list at the first occurrence of `c`; `none` when `c`
does not occur.  The separator itself is dropped. -/
def breakAtChar (c : Char) : List Char → Option (List Char × List Char)
  | [] => none
  | a :: as =>
    if a = c then some ([], as)
    else match breakAtChar c as with
      | some (x, y) => some (a :: x, y)
      | none => none

/-- Split a character list at the last occurrence of `c`. -/
def splitLast (c : Char) (l : List Char) : Option (List Char × List Char) :=
  match breakAtChar c l.reverse with
  | some (x, y) => some (y.reverse, x.reverse)
  | none => none

/-- Go `strings.SplitN(s, " ", 2)`: at most two fields, split at the first
space.  A string without a space yields a single field. -/
def goSplitNSpace2 (s : String) : List String :=
  match breakAtChar ' ' s.data with
  | some (x, y) => [String.mk x, String.mk y]
  | none => [s]

/-- Go `strings.Split(s, sep)` for a single-character separator. -/
def splitOnChar (c : Char) : List Char → List (List Char)
  | [] => [[]]
  | a :: as =>
    let r := splitOnChar c as
    if a = c then [] :: r
    else match r with
      | h :: t => (a :: h) :: t
      | [] => [[a]]

/-- `object.Signature` (only the `When` field matters to this code). -/
structure Signature where
  when : Int
deriving DecidableEq

/-- `object.Tag` as used by `tagAdd`: the tag name and its tagger. -/
structure Tag where
  name : String
  tagger : Signature
deriving DecidableEq

/-- `object.Commit` as used by the fallback scan: only the committer. -/
structure Commit where
  committer : Signature
deriving DecidableEq

/-- `remoteTarget` from git.go: a fully-qualified refspec and its time. -/
structure remoteTarget where
  remote : String
  when : Int
deriving DecidableEq

/-- A reference returned by `remote.List`, with the data the fallback loop
inspects: its name, whether its hash is zero, and the result of
`repo.CommitObject` on its hash (`none` models a lookup error). -/
structure RemoteRef where
  name : String
  hashZero : Bool
  commit : Option Commit
deriving DecidableEq

/-- Go map lookup on an association list (at most one binding per key is
maintained by `mapSet`); `none` models a `nil` map value. -/
def mapGet {β : Type} : List (String × β) → String → Option β
  | [], _ => none
  | (k, v) :: rest, key => if k = key then some v else mapGet rest key

/-- Go map assignment `m[key] = v`: replace the binding if present,
otherwise add it. -/
def mapSet {β : Type} : List (String × β) → String → β → List (String × β)
  | [], key, v => [(key, v)]
  | (k, w) :: rest, key, v =>
    if k = key then (key, v) :: rest else (k, w) :: mapSet rest key v

/-- Modelled from the spec: `tagImportRegex` is declared outside the provided
sources (only its call sites are in git.go).  The spec gives the naming
convention `refs/tags/imports/<prefix><version><separator><component>-<release>`
and the examples pin the captures: for `refs/tags/imports/c9s1.pkgname-3`,
capture 2 (the distinguishing component, used as map key and branch name) is
`c9s1` and capture 3 (the package name returned by `ImportName`) is
`pkgname`.  So: after the fixed 18-character `refs/tags/imports/` text, the
component runs to the first `.`, the package name to the last `-`, and the
release (nonempty) follows it. -/
def tagImportParse (s : String) : Option (String × String) :=
  if goHasPre "refs/tags/imports/" s then
    match breakAtChar '.' (s.data.drop 18) with
    | some (comp, rest) =>
      if comp = [] then none
      else match splitLast '-' rest with
        | some (pkg, rel) =>
          if pkg = [] || rel = [] then none
          else some (String.mk comp, String.mk pkg)
        | none => none
    | none => none
  else none

/-- The `fmt.Sprintf("imports/%s%d", pd.ImportBranchPrefix, pd.Version)`
text checked by `strings.HasPrefix` in `tagAdd`. -/
def importTagPre (pfx : String) (version : Nat) : String :=
  "imports/" ++ pfx ++ toString version

/-- The map `latestTags` of `RetrieveSource`, keyed by distinguishing
component (regex capture 2). -/
abbrev TagMap := List (String × remoteTarget)

/-- The closure `tagAdd` of `RetrieveSource` (git.go lines 76-94): if the tag
name carries the `imports/<prefix><version>` text and the fully-qualified
refspec matches the import pattern, record it under its component unless an
already-recorded target is strictly later (`exists.when.After(...)`). -/
def tagAdd (pfx : String) (version : Nat) (m : TagMap) (tag : Tag) : TagMap :=
  if goHasPre (importTagPre pfx version) tag.name then
    let refSpec := "refs/tags/" ++ tag.name
    match tagImportParse refSpec with
    | some (comp, _) =>
      match mapGet m comp with
      | some ex =>
        if ex.when > tag.tagger.when then m
        else mapSet m comp ⟨refSpec, tag.tagger.when⟩
      | none => mapSet m comp ⟨refSpec, tag.tagger.when⟩
    | none => m
  else m

/-- The key under which `tagAdd` would record a tag, `none` when the tag is
filtered out (wrong text or no pattern match). -/
def tagKey (pfx : String) (version : Nat) (t : Tag) : Option String :=
  if goHasPre (importTagPre pfx version) t.name then
    match tagImportParse ("refs/tags/" ++ t.name) with
    | some (comp, _) => some comp
    | none => none
  else none

/-- The `remoteTarget` built for a matching tag. -/
def targetOf (t : Tag) : remoteTarget :=
  ⟨"refs/tags/" ++ t.name, t.tagger.when⟩

/-- The tag-object scan of `RetrieveSource`: `tagIter.ForEach(tagAdd)`
starting from the empty `latestTags` map. -/
def resolveTags (pfx : String) (version : Nat) (tags : List Tag) : TagMap :=
  tags.foldl (tagAdd pfx version) []

/-- One iteration of the fallback loop of `RetrieveSource` (git.go lines
108-122): skip zero-hash refs, log and skip refs whose commit object cannot
be read, and otherwise feed `tagAdd` a synthetic tag whose name is the ref
name with `refs/tags/` trimmed and whose tagger is the commit's committer. -/
def fallbackStep (pfx : String) (version : Nat) :
    TagMap × List String → RemoteRef → TagMap × List String
  | (m, logs), ref =>
    if ref.hashZero then (m, logs)
    else match ref.commit with
      | none => (m, logs ++ ["could not get commit object for ref " ++ ref.name])
      | some c =>
        (tagAdd pfx version m ⟨goStripPre "refs/tags/" ref.name, c.committer⟩, logs)

/-- The whole fallback loop over `remote.List`'s result, with its log. -/
def fallbackScan (pfx : String) (version : Nat) (refs : List RemoteRef) :
    TagMap × List String :=
  refs.foldl (fallbackStep pfx version) ([], [])

/-- The resolution part of `RetrieveSource`: scan tag objects; if no tag
matched (`len(latestTags) == 0`), fall back to the listed remote refs. -/
def RetrieveSourceResolve (pfx : String) (version : Nat) (tags : List Tag)
    (refs : List RemoteRef) : TagMap × List String :=
  let m := resolveTags pfx version tags
  if m.isEmpty then fallbackScan pfx version refs else (m, [])

/-- Modelled from the spec: `CompareHash` is declared outside the provided
sources; it identifies the hash algorithm from the declared hash's shape,
recomputes it over the bytes and returns the hash kind on a match, nothing
on a mismatch.  The kinds are opaque here; the function itself is an
abstract collaborator in `Env`. -/
inductive HashKind where
  | sha1
  | sha224
  | sha256
  | sha384
  | sha512
deriving DecidableEq

/-- `data.IgnoredSource` as appended by `WriteSource`. -/
structure IgnoredSource where
  name : String
  hashFunction : HashKind
deriving DecidableEq

/-- Observable effects of one `WriteSource` manifest loop, in order. -/
inductive Ev where
  | cacheHit (hash : String)
  | blobStoreRead (hash : String)
  | httpGet (url : String)
  | cacheWrite (hash : String)
  | fileCreate (path : String)
  | fileWrite (path : String)
deriving DecidableEq

/-- The collaborators and run configuration consumed by the `WriteSource`
manifest loop: `pd.BlobStorage.Read`, the HTTP client (a successful GET's
body; transport failures are fatal infrastructure errors, out of scope),
`CompareHash`, `pd.NoStorageDownload`, and the two URL components. -/
structure Env where
  blobStorage : String → Option (List Nat)
  http : String → List Nat
  compareHash : List Nat → String → Option HashKind
  noStorageDownload : Bool
  rpmFileName : String
  branchName : String

/-- Mutable state threaded through the manifest loop: `md.BlobCache`,
`md.SourcesToIgnore`, and the trace of observable effects. -/
structure MState where
  blobCache : List (String × List Nat)
  ignored : List IgnoredSource
  events : List Ev
deriving DecidableEq

/-- Outcome of (part of) the manifest loop: normal completion, a
`log.Fatal` abort, or a runtime panic. -/
inductive RunResult where
  | ok (s : MState)
  | fatal (s : MState) (msg : String)
  | panics (s : MState) (msg : String)
deriving DecidableEq

def stateOf : RunResult → MState
  | .ok s => s
  | .fatal s _ => s
  | .panics s _ => s

def isPanic : RunResult → Bool
  | .panics _ _ => true
  | _ => false

def isFatal : RunResult → Bool
  | .fatal _ _ => true
  | _ => false

/-- The dist-git origin URL of git.go line 224. -/
def originUrl (pkg branch hash : String) : String :=
  "https://git.centos.org/sources/" ++ pkg ++ "/" ++ branch ++ "/" ++ hash

/-- The tiered acquisition of git.go lines 215-249: cache hit, otherwise
`BlobStorage.Read` (always invoked) whose result is used only when non-nil
and the no-download flag is unset, otherwise the origin HTTP GET; on a cache
miss the acquired bytes are stored in `BlobCache` before any verification. -/
def acquire (env : Env) (s : MState) (hash : String) : MState × List Nat :=
  match mapGet s.blobCache hash with
  | some body => ({ s with events := s.events ++ [Ev.cacheHit hash] }, body)
  | none =>
    let s1 : MState := { s with events := s.events ++ [Ev.blobStoreRead hash] }
    let r :=
      match env.blobStorage hash, env.noStorageDownload with
      | some b, false => (s1, b)
      | _, _ =>
        let url := originUrl env.rpmFileName env.branchName hash
        (({ s1 with events := s1.events ++ [Ev.httpGet url] } : MState), env.http url)
    ({ r.1 with blobCache := mapSet r.1.blobCache hash r.2,
                events := r.1.events ++ [Ev.cacheWrite hash] }, r.2)

/-- Lines 213-270 of git.go for one manifest entry: acquire the bytes,
create the target file, verify the hash (`log.Fatal` on mismatch), then
record the `IgnoredSource` and write the bytes. -/
def processEntry (env : Env) (s : MState) (hash path : String) : RunResult :=
  let ab := acquire env s hash
  let s2 : MState := { ab.1 with events := ab.1.events ++ [Ev.fileCreate path] }
  match env.compareHash ab.2 hash with
  | none => .fatal s2 "checksum in metadata does not match dist-git file"
  | some hasher =>
    .ok { s2 with ignored := s2.ignored ++ [⟨path, hasher⟩],
                  events := s2.events ++ [Ev.fileWrite path] }

/-- `strings.SplitN(line, " ", 2)` followed by the two indexings of git.go
lines 209-211; `none` models the index-out-of-range panic on a line with a
single field. -/
def parseLine (line : String) : Option (String × String) :=
  match goSplitNSpace2 line with
  | x :: y :: _ => some (goTrimSpace x, goTrimSpace y)
  | _ => none

/-- One iteration of the manifest loop (git.go lines 204-271): skip blank
lines, split the line (panicking when there is no second field), then
process the entry. -/
def processLine (env : Env) (s : MState) (line : String) : RunResult :=
  if goTrimSpace line = "" then .ok s
  else match parseLine line with
    | none => .panics s "runtime error: index out of range"
    | some (hash, path) => processEntry env s hash path

/-- The whole manifest loop, stopping at the first abort or panic. -/
def WriteSourceLines (env : Env) (s : MState) : List String → RunResult
  | [] => .ok s
  | line :: rest =>
    match processLine env s line with
    | .ok s1 => WriteSourceLines env s1 rest
    | r => r

/-- `WriteSource`'s manifest processing, from the metadata file's text:
`strings.Split(string(fileBytes), "\n")` then the loop. -/
def WriteSource (env : Env) (s : MState) (fileBytes : String) : RunResult :=
  WriteSourceLines env s ((splitOnChar '\n' fileBytes.data).map String.mk)

/-- `billy.Filesystem.Stat` on a tree modelled as the list of its paths. -/
def fsStat (tree : List String) (p : String) : Option Unit :=
  if p ∈ tree then some () else none

/-- `billy.Filesystem.Remove`: fails when the path is absent. -/
def fsRemove (tree : List String) (p : String) : Except String (List String) :=
  if p ∈ tree then .ok (tree.erase p) else .error "file does not exist"

/-- `PostProcess` of git.go lines 274-283: for every recorded ignored
source, stat it and remove it only when present; a `Remove` failure is a
fatal error (`Except.error`).  The final `Worktree.Add(".")` restaging is an
external git operation and leaves the set of paths unchanged. -/
def PostProcess (ignored : List IgnoredSource) (tree : List String) :
    Except String (List String) :=
  match ignored with
  | [] => .ok tree
  | src :: rest =>
    match fsStat tree src.name with
    | some _ =>
      match fsRemove tree src.name with
      | .ok t2 => PostProcess rest t2
      | .error e => .error e
    | none => PostProcess rest tree

/-- `ImportName` of git.go lines 291-298: the package-name capture when
the import pattern matches, otherwise the name with `refs/heads/` trimmed. -/
def ImportName (tagBranch : String) : String :=
  match tagImportParse tagBranch with
  | some (_, pkg) => pkg
  | none => goStripPre "refs/heads/" tagBranch

/-- Empty run state: `BlobCache` and `SourcesToIgnore` start empty. -/
def s0 : MState := ⟨[], [], []⟩

/-- An environment whose only byte source is the origin HTTP tier. -/
def envHttpOnly : Env :=
  ⟨fun _ => none, fun _ => [1, 2, 3], fun _ _ => some HashKind.sha256,
   false, "pkg", "c9s1"⟩

/-- An environment in which every verification fails. -/
def envBadHash : Env :=
  ⟨fun _ => none, fun _ => [1, 2, 3], fun _ _ => none, false, "pkg", "c9s1"⟩

/-- No-download run whose blob store does hold bytes for every hash. -/
def envNoDl : Env :=
  ⟨fun _ => some [9], fun _ => [7], fun _ _ => some HashKind.sha256,
   true, "pkg", "c9s1"⟩

/-- A run state whose BlobCache is pre-populated for hash h. -/
def sCached : MState := ⟨[("h", [7])], [], []⟩

theorem mapGet_mapSet_self {β : Type} (m : List (String × β)) (k : String) (v : β) :
    mapGet (mapSet m k v) k = some v := by
  induction m with
  | nil => simp [mapSet, mapGet]
  | cons kv rest ih =>
    obtain ⟨k1, w⟩ := kv
    by_cases h : k1 = k
    · simp [mapSet, h, mapGet]
    · simp [mapSet, h, mapGet, ih]

theorem mapGet_mapSet_ne {β : Type} (m : List (String × β)) (k key : String) (v : β)
    (h : key ≠ k) : mapGet (mapSet m k v) key = mapGet m key := by
  induction m with
  | nil => simp [mapSet, mapGet, Ne.symm h]
  | cons kv rest ih =>
    obtain ⟨k1, w⟩ := kv
    by_cases h1 : k1 = k
    · subst h1
      simp [mapSet, mapGet, Ne.symm h, h]
    · by_cases h2 : k1 = key
      · simp [mapSet, mapGet, h1, h2, h]
      · simp [mapSet, mapGet, h1, h2, ih]

theorem mapSet_keys {β : Type} (m : List (String × β)) (k : String) (v : β) :
    (mapSet m k v).map Prod.fst =
      if k ∈ m.map Prod.fst then m.map Prod.fst else m.map Prod.fst ++ [k] := by
  induction m with
  | nil => simp [mapSet]
  | cons kv rest ih =>
    obtain ⟨k1, w⟩ := kv
    by_cases h1 : k1 = k
    · subst h1; simp [mapSet]
    · have hne : ¬ k = k1 := fun hh => h1 hh.symm
      by_cases h2 : k ∈ rest.map Prod.fst
      · simp [mapSet, h1, ih, h2, hne]
      · simp [mapSet, h1, ih, h2, hne]

theorem mapSet_keys_nodup {β : Type} (m : List (String × β)) (k : String) (v : β)
    (h : (m.map Prod.fst).Nodup) : ((mapSet m k v).map Prod.fst).Nodup := by
  rw [mapSet_keys]
  split
  · exact h
  · rename_i hk
    simp [List.nodup_append, h, hk]

theorem tagAdd_dispatch (pfx : String) (v : Nat) (m : TagMap) (t : Tag) :
    tagAdd pfx v m t =
      match tagKey pfx v t with
      | none => m
      | some comp =>
        match mapGet m comp with
        | some ex =>
          if ex.when > t.tagger.when then m else mapSet m comp (targetOf t)
        | none => mapSet m comp (targetOf t) := by
  unfold tagAdd tagKey targetOf
  by_cases h : goHasPre (importTagPre pfx v) t.name = true
  · simp only [h, if_true]
    cases hp : tagImportParse ("refs/tags/" ++ t.name) with
    | none => rfl
    | some cp => obtain ⟨comp, pkg⟩ := cp; rfl
  · simp [h]

theorem tagAdd_get_other (pfx : String) (v : Nat) (m : TagMap) (t : Tag)
    (comp : String) (h : tagKey pfx v t ≠ some comp) :
    mapGet (tagAdd pfx v m t) comp = mapGet m comp := by
  rcases hk : tagKey pfx v t with _ | c
  · rw [tagAdd_dispatch, hk]
  · have hcc : comp ≠ c := fun hh => h (hh ▸ hk)
    rcases hm : mapGet m c with _ | ex
    · simp [tagAdd_dispatch, hk, hm, mapGet_mapSet_ne m c comp (targetOf t) hcc]
    · by_cases hlt : ex.when > t.tagger.when
      · simp [tagAdd_dispatch, hk, hm, hlt]
      · simp [tagAdd_dispatch, hk, hm, hlt,
          mapGet_mapSet_ne m c comp (targetOf t) hcc]

theorem tagAdd_get_same (pfx : String) (v : Nat) (m : TagMap) (t : Tag)
    (comp : String) (h : tagKey pfx v t = some comp) :
    mapGet (tagAdd pfx v m t) comp =
      some (match mapGet m comp with
            | some ex => if ex.when > t.tagger.when then ex else targetOf t
            | none => targetOf t) := by
  rcases hm : mapGet m comp with _ | ex
  · simp [tagAdd_dispatch, h, hm, mapGet_mapSet_self]
  · by_cases hlt : ex.when > t.tagger.when
    · simp [tagAdd_dispatch, h, hm, hlt]
    · simp [tagAdd_dispatch, h, hm, hlt, mapGet_mapSet_self]

theorem tagAdd_mono (pfx : String) (v : Nat) (m : TagMap) (t : Tag)
    (comp : String) (rt : remoteTarget) (h : mapGet m comp = some rt) :
    ∃ rt', mapGet (tagAdd pfx v m t) comp = some rt' ∧ rt.when ≤ rt'.when := by
  by_cases hk : tagKey pfx v t = some comp
  · by_cases hlt : rt.when > t.tagger.when
    · exact ⟨rt, by simp [tagAdd_get_same pfx v m t comp hk, h, hlt], le_refl _⟩
    · exact ⟨targetOf t, by simp [tagAdd_get_same pfx v m t comp hk, h, hlt],
        by simpa [targetOf] using not_lt.mp hlt⟩
  · exact ⟨rt, by rw [tagAdd_get_other pfx v m t comp hk]; exact h, le_refl _⟩

theorem foldl_tagAdd_mono (pfx : String) (v : Nat) (tags : List Tag) :
    ∀ (m : TagMap) (comp : String) (rt : remoteTarget), mapGet m comp = some rt →
      ∃ rt', mapGet (tags.foldl (tagAdd pfx v) m) comp = some rt' ∧
        rt.when ≤ rt'.when := by
  induction tags with
  | nil => intro m comp rt h; exact ⟨rt, h, le_refl _⟩
  | cons t ts ih =>
    intro m comp rt h
    obtain ⟨r1, h1, hle1⟩ := tagAdd_mono pfx v m t comp rt h
    obtain ⟨r2, h2, hle2⟩ := ih (tagAdd pfx v m t) comp r1 h1
    exact ⟨r2, by simpa using h2, le_trans hle1 hle2⟩

theorem foldl_tagAdd_origin (pfx : String) (v : Nat) (tags : List Tag) :
    ∀ (m : TagMap) (comp : String) (rt : remoteTarget),
      mapGet (tags.foldl (tagAdd pfx v) m) comp = some rt →
      mapGet m comp = some rt ∨
        ∃ t, t ∈ tags ∧ tagKey pfx v t = some comp ∧ rt = targetOf t := by
  induction tags with
  | nil => intro m comp rt h; exact Or.inl h
  | cons t ts ih =>
    intro m comp rt h
    rw [List.foldl_cons] at h
    rcases ih (tagAdd pfx v m t) comp rt h with h1 | ⟨t', ht', hk', hrt'⟩
    · by_cases hk : tagKey pfx v t = some comp
      · rcases hm : mapGet m comp with _ | ex
        · rw [tagAdd_get_same pfx v m t comp hk] at h1
          simp [hm] at h1
          exact Or.inr ⟨t, List.mem_cons_self t ts, hk, h1.symm⟩
        · by_cases hlt : ex.when > t.tagger.when
          · rw [tagAdd_get_same pfx v m t comp hk] at h1
            simp [hm, hlt] at h1
            exact Or.inl (congrArg some h1)
          · rw [tagAdd_get_same pfx v m t comp hk] at h1
            simp [hm, hlt] at h1
            exact Or.inr ⟨t, List.mem_cons_self t ts, hk, h1.symm⟩
      · rw [tagAdd_get_other pfx v m t comp hk] at h1
        exact Or.inl h1
    · exact Or.inr ⟨t', List.mem_cons_of_mem t ht', hk', hrt'⟩

theorem foldl_tagAdd_dominates (pfx : String) (v : Nat) (tags : List Tag) :
    ∀ (m : TagMap) (comp : String) (t : Tag), t ∈ tags → tagKey pfx v t = some comp →
      ∃ rt, mapGet (tags.foldl (tagAdd pfx v) m) comp = some rt ∧
        t.tagger.when ≤ rt.when := by
  induction tags with
  | nil => intro m comp t ht _; exact absurd ht (List.not_mem_nil t)
  | cons t1 ts ih =>
    intro m comp t ht hk
    rw [List.foldl_cons]
    rcases List.mem_cons.mp ht with heq | hmem
    · subst heq
      have h1 : ∃ r1, mapGet (tagAdd pfx v m t) comp = some r1 ∧
          t.tagger.when ≤ r1.when := by
        rcases hm : mapGet m comp with _ | ex
        · exact ⟨targetOf t, by simp [tagAdd_get_same pfx v m t comp hk, hm],
            by simp [targetOf]⟩
        · by_cases hlt : ex.when > t.tagger.when
          · exact ⟨ex, by simp [tagAdd_get_same pfx v m t comp hk, hm, hlt],
              le_of_lt hlt⟩
          · exact ⟨targetOf t,
              by simp [tagAdd_get_same pfx v m t comp hk, hm, hlt],
              by simp [targetOf]⟩
      obtain ⟨r1, hg, hle⟩ := h1
      obtain ⟨r2, hg2, hle2⟩ := foldl_tagAdd_mono pfx v ts (tagAdd pfx v m t) comp r1 hg
      exact ⟨r2, hg2, le_trans hle hle2⟩
    · exact ih (tagAdd pfx v m t1) comp t hmem hk

theorem tagAdd_keys_nodup (pfx : String) (v : Nat) (m : TagMap) (t : Tag)
    (h : (m.map Prod.fst).Nodup) : ((tagAdd pfx v m t).map Prod.fst).Nodup := by
  rcases hk : tagKey pfx v t with _ | comp
  · simpa [tagAdd_dispatch, hk] using h
  · rcases hm : mapGet m comp with _ | ex
    · simpa [tagAdd_dispatch, hk, hm] using mapSet_keys_nodup m comp (targetOf t) h
    · by_cases hlt : ex.when > t.tagger.when
      · simpa [tagAdd_dispatch, hk, hm, hlt] using h
      · simpa [tagAdd_dispatch, hk, hm, hlt] using
          mapSet_keys_nodup m comp (targetOf t) h

theorem resolveTags_keys_nodup (pfx : String) (v : Nat) (tags : List Tag) :
    ((resolveTags pfx v tags).map Prod.fst).Nodup := by
  suffices h : ∀ m : TagMap, (m.map Prod.fst).Nodup →
      ((tags.foldl (tagAdd pfx v) m).map Prod.fst).Nodup by
    exact h [] (by simp)
  induction tags with
  | nil => intro m hm; exact hm
  | cons t ts ih =>
    intro m hm
    rw [List.foldl_cons]
    exact ih _ (tagAdd_keys_nodup pfx v m t hm)

/-- C2: for any set of annotated tags, the final latestTags map holds at most
one entry per distinguishing component (its key list has no duplicates), the
entry for a component with at least one matching candidate is itself one of
the candidates, and its timestamp is greatest among all candidate
timestamps — so of two candidates with timestamps t1 < t2 only the t2
reference can remain. -/
theorem c2_latest_tag_selected (pfx : String) (v : Nat) (tags : List Tag)
    (comp : String) (t0 : Tag) (h0 : t0 ∈ tags)
    (hk0 : tagKey pfx v t0 = some comp) :
    ∃ rt, mapGet (resolveTags pfx v tags) comp = some rt ∧
      (∃ t, t ∈ tags ∧ tagKey pfx v t = some comp ∧ rt = targetOf t) ∧
      (∀ t, t ∈ tags → tagKey pfx v t = some comp → t.tagger.when ≤ rt.when) ∧
      ((resolveTags pfx v tags).map Prod.fst).Nodup := by
  have hres : resolveTags pfx v tags = tags.foldl (tagAdd pfx v) [] := rfl
  obtain ⟨rt, hget, _⟩ := foldl_tagAdd_dominates pfx v tags [] comp t0 h0 hk0
  rw [← hres] at hget
  refine ⟨rt, hget, ?_, ?_, resolveTags_keys_nodup pfx v tags⟩
  · have hget2 := hget
    rw [hres] at hget2
    rcases foldl_tagAdd_origin pfx v tags [] comp rt hget2 with h | h
    · simp [mapGet] at h
    · exact h
  · intro t ht hk
    obtain ⟨rt', hget', hle'⟩ := foldl_tagAdd_dominates pfx v tags [] comp t ht hk
    rw [← hres] at hget'
    rw [hget] at hget'
    exact (Option.some.inj hget') ▸ hle'

/-- Witness for C2 at two concrete candidate tags with timestamps 1 < 2. -/
theorem c2_witness :
    ∃ rt, mapGet (resolveTags "c9s" 1
        [⟨"imports/c9s1.pkga-1", ⟨1⟩⟩, ⟨"imports/c9s1.pkgb-2", ⟨2⟩⟩]) "c9s1" =
          some rt ∧
      (∃ t, t ∈ [(⟨"imports/c9s1.pkga-1", ⟨1⟩⟩ : Tag), ⟨"imports/c9s1.pkgb-2", ⟨2⟩⟩] ∧
        tagKey "c9s" 1 t = some "c9s1" ∧ rt = targetOf t) ∧
      (∀ t, t ∈ [(⟨"imports/c9s1.pkga-1", ⟨1⟩⟩ : Tag), ⟨"imports/c9s1.pkgb-2", ⟨2⟩⟩] →
        tagKey "c9s" 1 t = some "c9s1" → t.tagger.when ≤ rt.when) ∧
      ((resolveTags "c9s" 1
        [⟨"imports/c9s1.pkga-1", ⟨1⟩⟩, ⟨"imports/c9s1.pkgb-2", ⟨2⟩⟩]).map
          Prod.fst).Nodup :=
  c2_latest_tag_selected "c9s" 1
    [⟨"imports/c9s1.pkga-1", ⟨1⟩⟩, ⟨"imports/c9s1.pkgb-2", ⟨2⟩⟩] "c9s1"
    ⟨"imports/c9s1.pkga-1", ⟨1⟩⟩ (by decide) (by decide)

/-- Counterexample for C5: two candidate tags for component c9s1 carry the
same timestamp 5, so the existing entry's timestamp is not earlier than the
new tag's; the claim says the existing entry is kept, but the code replaces
it with the later-iterated tag. -/
theorem c5_counterexample :
    (5 : Int) ≥ 5 ∧
    mapGet (resolveTags "c9s" 1
      [⟨"imports/c9s1.pkga-1", ⟨5⟩⟩, ⟨"imports/c9s1.pkgb-2", ⟨5⟩⟩]) "c9s1" =
      some ⟨"refs/tags/imports/c9s1.pkgb-2", 5⟩ ∧
    ("refs/tags/imports/c9s1.pkgb-2" : String) ≠
      "refs/tags/imports/c9s1.pkga-1" := by decide

/-- C5 (amended): the existing entry is kept only when its timestamp is
strictly later than the new tag's; when the new tag's timestamp is greater
than or equal to the existing one (ties included) the new tag replaces the
entry — last write wins. -/
theorem c5_strictly_later_kept (pfx : String) (v : Nat) (m : TagMap) (t : Tag)
    (comp : String) (ex : remoteTarget) (hk : tagKey pfx v t = some comp)
    (hm : mapGet m comp = some ex) :
    (ex.when > t.tagger.when → tagAdd pfx v m t = m) ∧
    (ex.when ≤ t.tagger.when →
      mapGet (tagAdd pfx v m t) comp = some (targetOf t)) := by
  constructor
  · intro hgt
    simp [tagAdd_dispatch, hk, hm, hgt]
  · intro hle
    simp [tagAdd_get_same pfx v m t comp hk, hm, not_lt.mpr hle]

/-- Witness for C5 (amended) at an equal-timestamp pair. -/
theorem c5_witness :
    mapGet (tagAdd "c9s" 1 [("c9s1", ⟨"refs/tags/imports/c9s1.pkga-1", 5⟩)]
        ⟨"imports/c9s1.pkgb-2", ⟨5⟩⟩) "c9s1" =
      some (targetOf ⟨"imports/c9s1.pkgb-2", ⟨5⟩⟩) :=
  (c5_strictly_later_kept "c9s" 1 [("c9s1", ⟨"refs/tags/imports/c9s1.pkga-1", 5⟩)]
    ⟨"imports/c9s1.pkgb-2", ⟨5⟩⟩ "c9s1" ⟨"refs/tags/imports/c9s1.pkga-1", 5⟩
    (by decide) (by decide)).2 (by decide)

/-- C6: when no tag matched, resolution falls back to the listed remote
refs; a zero-hash ref is skipped unconditionally; a ref whose commit object
cannot be read is logged and only that ref is skipped, the loop going on
with the remaining refs; a readable ref contributes a candidate through
`tagAdd` with the trimmed ref name and the head commit's committer time as
its timestamp. -/
theorem c6_fallback_scan :
    (∀ (pfx : String) (v : Nat) (tags : List Tag) (refs : List RemoteRef),
      resolveTags pfx v tags = [] →
      RetrieveSourceResolve pfx v tags refs = fallbackScan pfx v refs) ∧
    (∀ (pfx : String) (v : Nat) (acc : TagMap × List String) (ref : RemoteRef),
      ref.hashZero = true → fallbackStep pfx v acc ref = acc) ∧
    (∀ (pfx : String) (v : Nat) (m : TagMap) (logs : List String)
        (ref : RemoteRef), ref.hashZero = false → ref.commit = none →
      fallbackStep pfx v (m, logs) ref =
        (m, logs ++ ["could not get commit object for ref " ++ ref.name])) ∧
    (∀ (pfx : String) (v : Nat) (m : TagMap) (logs : List String)
        (ref : RemoteRef) (c : Commit), ref.hashZero = false → ref.commit = some c →
      fallbackStep pfx v (m, logs) ref =
        (tagAdd pfx v m ⟨goStripPre "refs/tags/" ref.name, c.committer⟩, logs)) ∧
    (∀ (pfx : String) (v : Nat) (acc : TagMap × List String) (bad : RemoteRef)
        (rest : List RemoteRef), bad.hashZero = false → bad.commit = none →
      (bad :: rest).foldl (fallbackStep pfx v) acc =
        rest.foldl (fallbackStep pfx v)
          (acc.1, acc.2 ++ ["could not get commit object for ref " ++ bad.name])) := by
  refine ⟨?_, ?_, ?_, ?_, ?_⟩
  · intro pfx v tags refs h
    simp [RetrieveSourceResolve, h]
  · intro pfx v acc ref h
    obtain ⟨m, logs⟩ := acc
    simp [fallbackStep, h]
  · intro pfx v m logs ref h hc
    simp [fallbackStep, h, hc]
  · intro pfx v m logs ref c h hc
    simp [fallbackStep, h, hc]
  · intro pfx v acc bad rest h hc
    obtain ⟨m, logs⟩ := acc
    rw [List.foldl_cons]
    simp [fallbackStep, h, hc]

/-- Witness for C6: a zero-hash ref and an unreadable ref around a readable
one; the unreadable ref is logged and skipped while the readable one still
contributes. -/
theorem c6_witness :
    RetrieveSourceResolve "c9s" 1 []
        [⟨"refs/tags/imports/c9s1.pkga-1", false, none⟩] =
      fallbackScan "c9s" 1 [⟨"refs/tags/imports/c9s1.pkga-1", false, none⟩] ∧
    fallbackStep "c9s" 1 ([], []) ⟨"refs/heads/dead", true, none⟩ = ([], []) ∧
    fallbackStep "c9s" 1 ([], []) ⟨"refs/tags/imports/c9s1.pkga-1", false, none⟩ =
      ([], ["could not get commit object for ref refs/tags/imports/c9s1.pkga-1"]) ∧
    fallbackStep "c9s" 1 ([], []) ⟨"refs/tags/imports/c9s1.pkga-1", false, some ⟨⟨7⟩⟩⟩ =
      (tagAdd "c9s" 1 []
        ⟨goStripPre "refs/tags/" "refs/tags/imports/c9s1.pkga-1", ⟨7⟩⟩, []) ∧
    [(⟨"refs/heads/bad", false, none⟩ : RemoteRef),
        ⟨"refs/tags/imports/c9s1.pkga-1", false, some ⟨⟨7⟩⟩⟩].foldl
        (fallbackStep "c9s" 1) ([], []) =
      [(⟨"refs/tags/imports/c9s1.pkga-1", false, some ⟨⟨7⟩⟩⟩ : RemoteRef)].foldl
        (fallbackStep "c9s" 1)
        ([], ["could not get commit object for ref refs/heads/bad"]) :=
  ⟨c6_fallback_scan.1 "c9s" 1 [] [⟨"refs/tags/imports/c9s1.pkga-1", false, none⟩] rfl,
   c6_fallback_scan.2.1 "c9s" 1 ([], []) ⟨"refs/heads/dead", true, none⟩ rfl,
   c6_fallback_scan.2.2.1 "c9s" 1 [] [] ⟨"refs/tags/imports/c9s1.pkga-1", false, none⟩
     rfl rfl,
   c6_fallback_scan.2.2.2.1 "c9s" 1 [] [] ⟨"refs/tags/imports/c9s1.pkga-1", false,
     some ⟨⟨7⟩⟩⟩ ⟨⟨7⟩⟩ rfl rfl,
   c6_fallback_scan.2.2.2.2 "c9s" 1 ([], []) ⟨"refs/heads/bad", false, none⟩
     [⟨"refs/tags/imports/c9s1.pkga-1", false, some ⟨⟨7⟩⟩⟩] rfl rfl⟩

theorem acquire_ignored (env : Env) (s : MState) (hash : String) :
    (acquire env s hash).1.ignored = s.ignored := by
  rcases hm : mapGet s.blobCache hash with _ | body
  · cases hb : env.blobStorage hash <;> cases hnd : env.noStorageDownload <;>
      simp [acquire, hm, hb, hnd]
  · simp [acquire, hm]

theorem acquire_no_fileWrite (env : Env) (s : MState) (hash p : String) :
    Ev.fileWrite p ∈ (acquire env s hash).1.events → Ev.fileWrite p ∈ s.events := by
  rcases hm : mapGet s.blobCache hash with _ | body
  · cases hb : env.blobStorage hash <;> cases hnd : env.noStorageDownload <;>
      simp [acquire, hm, hb, hnd]
  · simp [acquire, hm]

theorem acquire_blobCache_written (env : Env) (s : MState) (hash : String)
    (h : mapGet s.blobCache hash = none) :
    (acquire env s hash).1.blobCache =
      mapSet s.blobCache hash (acquire env s hash).2 := by
  cases hb : env.blobStorage hash <;> cases hnd : env.noStorageDownload <;>
    simp [acquire, h, hb, hnd]

/-- Counterexample for C1: with an empty cache, an absent blob store and a
mismatching download, the run does abort fatally, but by then the target
file has already been created and the offending bytes have already been
inserted into the BlobCache — contradicting "before the target file is
created" and "never inserted into the BlobCache". -/
theorem c1_counterexample :
    isFatal (processEntry envBadHash s0 "h" "p") = true ∧
    Ev.fileCreate "p" ∈ (stateOf (processEntry envBadHash s0 "h" "p")).events ∧
    mapGet (stateOf (processEntry envBadHash s0 "h" "p")).blobCache "h" =
      some [1, 2, 3] := by decide

/-- C1 (amended): on a digest mismatch the manifest entry ends in a fatal
abort; no bytes are written to the target file and no IgnoredSource is
recorded, and the abort stops the manifest loop so no later entry is
processed — but the target file has already been created (truncated empty)
before the check, and on a cache miss the offending bytes have already been
inserted into the BlobCache. -/
theorem c1_mismatch_aborts :
    (∀ (env : Env) (s : MState) (hash path : String),
      env.compareHash (acquire env s hash).2 hash = none →
      processEntry env s hash path =
        .fatal { (acquire env s hash).1 with
          events := (acquire env s hash).1.events ++ [Ev.fileCreate path] }
          "checksum in metadata does not match dist-git file" ∧
      (stateOf (processEntry env s hash path)).ignored = s.ignored ∧
      (∀ p, Ev.fileWrite p ∈ (stateOf (processEntry env s hash path)).events →
        Ev.fileWrite p ∈ s.events) ∧
      Ev.fileCreate path ∈ (stateOf (processEntry env s hash path)).events ∧
      (mapGet s.blobCache hash = none →
        mapGet (stateOf (processEntry env s hash path)).blobCache hash =
          some (acquire env s hash).2)) ∧
    (∀ (env : Env) (s : MState) (line : String) (rest : List String)
        (s1 : MState) (msg : String), processLine env s line = .fatal s1 msg →
      WriteSourceLines env s (line :: rest) = .fatal s1 msg) := by
  constructor
  · intro env s hash path hcmp
    have he : processEntry env s hash path =
        .fatal { (acquire env s hash).1 with
          events := (acquire env s hash).1.events ++ [Ev.fileCreate path] }
          "checksum in metadata does not match dist-git file" := by
      simp [processEntry, hcmp]
    refine ⟨he, ?_, ?_, ?_, ?_⟩
    · rw [he]
      simp [stateOf, acquire_ignored]
    · intro p hp
      rw [he] at hp
      simp [stateOf] at hp
      exact acquire_no_fileWrite env s hash p hp
    · rw [he]
      simp [stateOf]
    · intro hmiss
      rw [he]
      simp [stateOf, acquire_blobCache_written env s hash hmiss, mapGet_mapSet_self]
  · intro env s line rest s1 msg h
    simp [WriteSourceLines, h]

/-- Witness for C1 (amended) at a concrete mismatching entry. -/
theorem c1_witness :
    processEntry envBadHash s0 "h" "p" =
      .fatal { (acquire envBadHash s0 "h").1 with
        events := (acquire envBadHash s0 "h").1.events ++ [Ev.fileCreate "p"] }
        "checksum in metadata does not match dist-git file" ∧
    (stateOf (processEntry envBadHash s0 "h" "p")).ignored = s0.ignored ∧
    (∀ p, Ev.fileWrite p ∈ (stateOf (processEntry envBadHash s0 "h" "p")).events →
      Ev.fileWrite p ∈ s0.events) ∧
    Ev.fileCreate "p" ∈ (stateOf (processEntry envBadHash s0 "h" "p")).events ∧
    (mapGet s0.blobCache "h" = none →
      mapGet (stateOf (processEntry envBadHash s0 "h" "p")).blobCache "h" =
        some (acquire envBadHash s0 "h").2) :=
  c1_mismatch_aborts.1 envBadHash s0 "h" "p" (by decide)

/-- Counterexample for C3: with the no-download flag set and a cache miss,
the blob store's read operation is still consulted (its result is merely
discarded), contradicting "the external blob store's read operation is never
consulted". -/
theorem c3_counterexample :
    envNoDl.noStorageDownload = true ∧
    mapGet s0.blobCache "h" = none ∧
    Ev.blobStoreRead "h" ∈ (stateOf (processEntry envNoDl s0 "h" "p")).events := by
  decide

/-- C3 (amended): when the no-download flag is set, a cache miss still
invokes the blob store's read, but its result is discarded: the bytes always
come from the origin HTTP tier. -/
theorem c3_no_download_uses_origin (env : Env) (s : MState) (hash : String)
    (hnd : env.noStorageDownload = true) (hmiss : mapGet s.blobCache hash = none) :
    acquire env s hash =
      ({ s with
          blobCache := mapSet s.blobCache hash
            (env.http (originUrl env.rpmFileName env.branchName hash)),
          events := s.events ++
            [Ev.blobStoreRead hash,
             Ev.httpGet (originUrl env.rpmFileName env.branchName hash),
             Ev.cacheWrite hash] },
       env.http (originUrl env.rpmFileName env.branchName hash)) := by
  cases hb : env.blobStorage hash <;> simp [acquire, hmiss, hb, hnd]

/-- Witness for C3 (amended) at a concrete no-download cache miss. -/
theorem c3_witness :
    acquire envNoDl s0 "h" =
      ({ s0 with
          blobCache := mapSet s0.blobCache "h"
            (envNoDl.http (originUrl envNoDl.rpmFileName envNoDl.branchName "h")),
          events := s0.events ++
            [Ev.blobStoreRead "h",
             Ev.httpGet (originUrl envNoDl.rpmFileName envNoDl.branchName "h"),
             Ev.cacheWrite "h"] },
       envNoDl.http (originUrl envNoDl.rpmFileName envNoDl.branchName "h")) :=
  c3_no_download_uses_origin envNoDl s0 "h" rfl rfl

/-- C4: when the BlobCache already holds the entry's hash, the cached bytes
are used directly, the cache binding is left untouched (not rewritten), and
the entry adds no blob-store read, no HTTP request and no cache write — its
only new events are the cache hit, the file creation and the file write. -/
theorem c4_cache_hit_no_external (env : Env) (s : MState) (hash path : String)
    (body : List Nat) (h : mapGet s.blobCache hash = some body) :
    (acquire env s hash).2 = body ∧
    (stateOf (processEntry env s hash path)).blobCache = s.blobCache ∧
    (∀ e, e ∈ (stateOf (processEntry env s hash path)).events →
      e ∈ s.events ∨ e = Ev.cacheHit hash ∨ e = Ev.fileCreate path ∨
        e = Ev.fileWrite path) := by
  have ha : acquire env s hash =
      ({ s with events := s.events ++ [Ev.cacheHit hash] }, body) := by
    simp [acquire, h]
  refine ⟨by rw [ha], ?_, ?_⟩
  · cases hc : env.compareHash body hash <;>
      simp [processEntry, ha, stateOf, hc]
  · intro e he
    cases hc : env.compareHash body hash <;>
      · simp [processEntry, ha, stateOf, hc] at he
        tauto

/-- Witness for C4 at a pre-populated cache. -/
theorem c4_witness :
    (acquire envHttpOnly sCached "h").2 = [7] ∧
    (stateOf (processEntry envHttpOnly sCached "h" "p")).blobCache =
      sCached.blobCache ∧
    (∀ e, e ∈ (stateOf (processEntry envHttpOnly sCached "h" "p")).events →
      e ∈ sCached.events ∨ e = Ev.cacheHit "h" ∨ e = Ev.fileCreate "p" ∨
        e = Ev.fileWrite "p") :=
  c4_cache_hit_no_external envHttpOnly sCached "h" "p" [7] (by decide)

theorem breakAtChar_none_iff (c : Char) (l : List Char) :
    breakAtChar c l = none ↔ c ∉ l := by
  induction l with
  | nil => simp [breakAtChar]
  | cons a as ih =>
    by_cases h : a = c
    · subst h; simp [breakAtChar]
    · rcases hb : breakAtChar c as with _ | p
      · simp [breakAtChar, h, hb, Ne.symm h, ih.mp hb]
      · have hc : c ∈ as := by
          by_contra hcn
          rw [ih.mpr hcn] at hb
          exact Option.noConfusion hb
        simp [breakAtChar, h, hb, hc]

theorem breakAtChar_first (c : Char) (a b : List Char) (h : c ∉ a) :
    breakAtChar c (a ++ c :: b) = some (a, b) := by
  induction a with
  | nil => simp [breakAtChar]
  | cons x xs ih =>
    have hx : ¬ x = c := by
      intro hh
      subst hh
      exact h (List.mem_cons_self x xs)
    simp [breakAtChar, hx, ih (fun hc => h (List.mem_cons_of_mem x hc))]

theorem goSplitNSpace2_split (a b : String) (h : ' ' ∉ a.data) :
    goSplitNSpace2 (a ++ " " ++ b) = [a, b] := by
  have hd : (a ++ " " ++ b).data = a.data ++ ' ' :: b.data := by
    simp [String.data_append]
  unfold goSplitNSpace2
  rw [hd, breakAtChar_first ' ' a.data b.data h]

theorem parseLine_split (a b : String) (h : ' ' ∉ a.data) :
    parseLine (a ++ " " ++ b) = some (goTrimSpace a, goTrimSpace b) := by
  simp [parseLine, goSplitNSpace2_split a b h]

theorem parseLine_none_iff (line : String) :
    parseLine line = none ↔ ' ' ∉ line.data := by
  rw [← breakAtChar_none_iff ' ' line.data]
  rcases hb : breakAtChar ' ' line.data with _ | p
  · simp [parseLine, goSplitNSpace2, hb]
  · obtain ⟨x, y⟩ := p
    simp [parseLine, goSplitNSpace2, hb]

theorem processEntry_no_panic (env : Env) (s : MState) (hash path : String) :
    isPanic (processEntry env s hash path) = false := by
  cases hc : env.compareHash (acquire env s hash).2 hash <;>
    simp [processEntry, hc, isPanic]

theorem processLine_panic_iff (env : Env) (s : MState) (line : String) :
    isPanic (processLine env s line) = true ↔
      (goTrimSpace line ≠ "" ∧ ' ' ∉ line.data) := by
  by_cases hblank : goTrimSpace line = ""
  · simp [processLine, hblank, isPanic]
  · rcases hp : parseLine line with _ | pr
    · simp [processLine, hblank, isPanic, hp, (parseLine_none_iff line).mp hp]
    · obtain ⟨h1, p1⟩ := pr
      have hsp : ¬ ' ' ∉ line.data := by
        intro hn
        rw [(parseLine_none_iff line).mpr hn] at hp
        exact Option.noConfusion hp
      simp [processLine, hblank, hp, processEntry_no_panic, hsp]

theorem writeSourceLines_no_panic (env : Env) :
    ∀ (lines : List String) (s : MState),
      (∀ l, l ∈ lines → goTrimSpace l ≠ "" → ' ' ∈ l.data) →
      isPanic (WriteSourceLines env s lines) = false := by
  intro lines
  induction lines with
  | nil => intro s _; simp [WriteSourceLines, isPanic]
  | cons line rest ih =>
    intro s hall
    cases hr : processLine env s line with
    | ok s1 =>
      rw [WriteSourceLines, hr]
      exact ih s1 (fun l hl => hall l (List.mem_cons_of_mem line hl))
    | fatal s1 msg =>
      rw [WriteSourceLines, hr]
      rfl
    | panics s1 msg =>
      exfalso
      have h1 : isPanic (processLine env s line) = true := by rw [hr]; rfl
      obtain ⟨hnb, hns⟩ := (processLine_panic_iff env s line).mp h1
      exact hns (hall line (List.mem_cons_self line rest) hnb)

/-- Counterexample for C7: the line ab is non-blank yet contains no space,
so parsing does not split it into two fields — the manifest loop panics on
it instead. -/
theorem c7_counterexample :
    goTrimSpace "ab" ≠ "" ∧ goSplitNSpace2 "ab" = ["ab"] ∧ parseLine "ab" = none ∧
    isPanic (processLine envHttpOnly s0 "ab") = true := by decide

/-- C7 (amended): blank (all-whitespace) lines are skipped and produce no
manifest entry; a non-blank line containing at least one space is split at
the FIRST space character into exactly two fields — the content hash is the
trimmed text before that space and the relative path the trimmed
remainder; a non-blank line with no space is not parsed at all (it panics,
see C10). -/
theorem c7_line_parsing :
    (∀ (env : Env) (s : MState) (line : String),
      goTrimSpace line = "" → processLine env s line = .ok s) ∧
    (∀ a b : String, ' ' ∉ a.data →
      goSplitNSpace2 (a ++ " " ++ b) = [a, b] ∧
      parseLine (a ++ " " ++ b) = some (goTrimSpace a, goTrimSpace b)) := by
  constructor
  · intro env s line h
    simp [processLine, h]
  · intro a b h
    exact ⟨goSplitNSpace2_split a b h, parseLine_split a b h⟩

/-- Witness for C7 (amended) at a concrete hash/path line. -/
theorem c7_witness :
    goSplitNSpace2 ("deadbeef" ++ " " ++ "SOURCES/a.tar.gz") =
      ["deadbeef", "SOURCES/a.tar.gz"] ∧
    parseLine ("deadbeef" ++ " " ++ "SOURCES/a.tar.gz") =
      some (goTrimSpace "deadbeef", goTrimSpace "SOURCES/a.tar.gz") :=
  c7_line_parsing.2 "deadbeef" "SOURCES/a.tar.gz" (by decide)

/-- C10: the manifest loop panics on a line exactly when the line is
non-blank and contains no space character (the single-field access is out
of range); consequently a run is free of this panic whenever every
non-blank metadata line contains at least one space. -/
theorem c10_spaceless_line_panics :
    (∀ (env : Env) (s : MState) (line : String),
      isPanic (processLine env s line) = true ↔
        (goTrimSpace line ≠ "" ∧ ' ' ∉ line.data)) ∧
    (∀ (env : Env) (s : MState) (lines : List String),
      (∀ l, l ∈ lines → goTrimSpace l ≠ "" → ' ' ∈ l.data) →
      isPanic (WriteSourceLines env s lines) = false) :=
  ⟨processLine_panic_iff,
   fun env s lines h => writeSourceLines_no_panic env lines s h⟩

/-- Witness for C10 at a spaceless line and at a well-formed manifest. -/
theorem c10_witness :
    (isPanic (processLine envHttpOnly s0 "ab") = true ↔
      (goTrimSpace "ab" ≠ "" ∧ ' ' ∉ ("ab" : String).data)) ∧
    isPanic (WriteSourceLines envHttpOnly s0 ["a b"]) = false :=
  ⟨c10_spaceless_line_panics.1 envHttpOnly s0 "ab",
   c10_spaceless_line_panics.2 envHttpOnly s0 ["a b"] (by decide)⟩

/-- C8: PostProcess removes exactly the recorded ignored paths from the
tree — a path survives if and only if it was in the tree and is not named
by any IgnoredSource — and it never errors, in particular when a listed
path is already absent from the tree. -/
theorem c8_postprocess_removes_only_ignored (ignored : List IgnoredSource)
    (tree : List String) (hnd : tree.Nodup) :
    ∃ r, PostProcess ignored tree = .ok r ∧
      ∀ p, p ∈ r ↔ (p ∈ tree ∧ ∀ src, src ∈ ignored → src.name ≠ p) := by
  induction ignored generalizing tree with
  | nil => exact ⟨tree, rfl, by simp⟩
  | cons src rest ih =>
    by_cases hmem : src.name ∈ tree
    · obtain ⟨r, hr, hmemr⟩ := ih (tree.erase src.name) (hnd.erase src.name)
      refine ⟨r, ?_, ?_⟩
      · simp [PostProcess, fsStat, fsRemove, hmem, hr]
      · intro p
        rw [hmemr p]
        constructor
        · rintro ⟨hp1, hp2⟩
          have hpe := (List.Nodup.mem_erase_iff hnd).mp hp1
          refine ⟨hpe.2, fun t ht => ?_⟩
          rcases List.mem_cons.mp ht with h | h
          · subst h
            exact fun hh => hpe.1 hh.symm
          · exact hp2 t h
        · rintro ⟨hp1, hp2⟩
          refine ⟨(List.Nodup.mem_erase_iff hnd).mpr
            ⟨fun hh => (hp2 src (List.mem_cons_self src rest)) hh.symm, hp1⟩,
            fun t ht => hp2 t (List.mem_cons_of_mem src ht)⟩
    · obtain ⟨r, hr, hmemr⟩ := ih tree hnd
      refine ⟨r, ?_, ?_⟩
      · simp [PostProcess, fsStat, hmem, hr]
      · intro p
        rw [hmemr p]
        constructor
        · rintro ⟨hp1, hp2⟩
          refine ⟨hp1, fun t ht => ?_⟩
          rcases List.mem_cons.mp ht with h | h
          · subst h
            intro hh
            rw [hh] at hmem
            exact hmem hp1
          · exact hp2 t h
        · rintro ⟨hp1, hp2⟩
          exact ⟨hp1, fun t ht => hp2 t (List.mem_cons_of_mem src ht)⟩

/-- Witness for C8: one ignored path present, one already absent; the run
succeeds and removes only the present one. -/
theorem c8_witness :
    ∃ r, PostProcess [⟨"a", HashKind.sha256⟩, ⟨"b", HashKind.sha256⟩]
        ["a", "c"] = .ok r ∧
      ∀ p, p ∈ r ↔ (p ∈ ["a", "c"] ∧
        ∀ src, src ∈ [(⟨"a", HashKind.sha256⟩ : IgnoredSource),
          ⟨"b", HashKind.sha256⟩] → src.name ≠ p) :=
  c8_postprocess_removes_only_ignored
    [⟨"a", HashKind.sha256⟩, ⟨"b", HashKind.sha256⟩] ["a", "c"] (by decide)

/-- C9: on an import-pattern match, ImportName returns the package-name
capture; otherwise it strips a refs/heads/ prefix when present and returns
the name unchanged when not; in particular the two spec examples hold. -/
theorem c9_import_name :
    ImportName "refs/tags/imports/c9s1.pkgname-3" = "pkgname" ∧
    ImportName "refs/heads/c9s1" = "c9s1" ∧
    (∀ (s : String) (comp pkg : String), tagImportParse s = some (comp, pkg) →
      ImportName s = pkg) ∧
    (∀ s : String, tagImportParse s = none →
      ImportName s = goStripPre "refs/heads/" s) ∧
    (∀ s : String, tagImportParse s = none → goHasPre "refs/heads/" s = false →
      ImportName s = s) := by
  refine ⟨by decide, by decide, ?_, ?_, ?_⟩
  · intro s comp pkg h
    simp [ImportName, h]
  · intro s h
    simp [ImportName, h]
  · intro s h hpre
    simp [ImportName, h, goStripPre, hpre]

/-- Witness for C9 at a fresh import tag. -/
theorem c9_witness : ImportName "refs/tags/imports/a1.b-2" = "b" :=
  c9_import_name.2.2.1 "refs/tags/imports/a1.b-2" "a1" "b" (by decide)

end Srpmproc
